import Mathlib

/-!
# Verification of the GOAP planner and economic strategist

Shallow embedding of `ai-service/goap.py` (Action, GOAPPlanner) and
`ai-service/planning/economic_planner.py` (EconomicPlanner).

Embedding conventions:
* Python dict values in planner states are, per the data model, scalar
  booleans or numbers.  `Value` has one constructor for each.  Python's
  `bool` is a subclass of `int`, so `isinstance(v, (int, float))` holds for
  booleans and numeric comparison treats `True` as 1 and `False` as 0;
  `Value.isNumeric`/`Value.toRat` encode exactly that.
* Python floats are modelled as rationals; the arithmetic in this code is
  small-scale and the spec states all formulas over the reals.
* A Python dict is an association list `List (String × Value)` with unique
  keys; `getVal` is `dict.get` (first match), `setVal` is item assignment
  (replace in place, append if new — mirroring dict insertion order).
* All functions are pure: `apply` returns a fresh state and cannot mutate
  its argument, and no operation here can raise (the data model excludes
  the string-plus-number case that would).
-/

namespace Spec2Proof

/-- A scalar dict value: a Python `bool` or a Python number (int/float,
modelled as `ℚ`). -/
inductive Value where
  | bool (b : Bool)
  | num (q : ℚ)
deriving DecidableEq, Repr

/-- Embeds `isinstance(v, (int, float))`.  Python's `bool` is a subclass of `int`,
so this is true for booleans as well. -/
def Value.isNumeric : Value → Bool
  | .bool _ => true
  | .num _ => true

/-- The numeric content of a value; `True` compares as 1, `False` as 0. -/
def Value.toRat : Value → ℚ
  | .bool b => if b then 1 else 0
  | .num q => q

theorem Value.isNumeric_eq_true (v : Value) : v.isNumeric = true := by
  cases v <;> rfl

/-- A planner state: a Python `Dict[str, Any]` as an association list. -/
abbrev State := List (String × Value)

/-- Embeds `state.get(k)` — the first binding of `k`, `none` when absent. -/
def getVal : State → String → Option Value
  | [], _ => none
  | kv :: rest, k => if kv.1 = k then some kv.2 else getVal rest k

/-- Embeds `state[k] = v` — replace the first binding of `k` in place, append when
absent (Python dict assignment keeps the key's position). -/
def setVal : State → String → Value → State
  | [], k, v => [(k, v)]
  | kv :: rest, k, v => if kv.1 = k then (k, v) :: rest else kv :: setVal rest k v

theorem getVal_setVal (s : State) (k : String) (v : Value) (k' : String) :
    getVal (setVal s k v) k' = if k = k' then some v else getVal s k' := by
  induction s with
  | nil => simp [setVal, getVal]
  | cons kv rest ih =>
    by_cases h1 : kv.1 = k
    · by_cases h2 : k = k' <;> simp [setVal, getVal, h1, h2]
    · by_cases h2 : kv.1 = k'
      · have hne : ¬ k = k' := fun he => h1 (h2.trans he.symm)
        have hne' : ¬ k' = k := fun he => hne he.symm
        simp [setVal, getVal, h1, h2, hne, hne']
      · simp [setVal, getVal, h1, h2, ih]

/-- Embeds `Action` from `goap.py`: name, preconditions, effects, cost. -/
structure Action where
  name : String
  preconditions : State
  effects : State
  cost : ℚ
deriving DecidableEq, Repr

/-- One precondition entry of `Action.is_valid`: numeric values (which is
every `Value`, booleans included) are minimum thresholds; an absent key
(`state.get` returns `None`) fails the equality fallback. -/
def precondHolds (s : State) (kv : String × Value) : Bool :=
  match getVal s kv.1 with
  | some sv =>
    if kv.2.isNumeric && sv.isNumeric then
      decide (kv.2.toRat ≤ sv.toRat)
    else
      decide (sv = kv.2)
  | none => false

/-- Embeds `Action.is_valid`: all preconditions hold in the state. -/
def Action.is_valid (a : Action) (s : State) : Bool :=
  a.preconditions.all (precondHolds s)

/-- One step of `Action.apply`'s effect loop: numeric effect values on a
key already present are additive deltas, everything else is assigned
directly. -/
def applyEffect (ns : State) (kv : String × Value) : State :=
  if kv.2.isNumeric && (getVal ns kv.1).isSome then
    setVal ns kv.1 (.num (((getVal ns kv.1).getD (.num 0)).toRat + kv.2.toRat))
  else
    setVal ns kv.1 kv.2

/-- Embeds `Action.apply`: fold the effects over a copy of the state. -/
def Action.apply (a : Action) (s : State) : State :=
  a.effects.foldl applyEffect s

/-- One goal entry of `_check_goal` (and of `_heuristic`, which uses the
same satisfaction rule): numeric target 0 tolerates values up to 0.05,
positive numeric targets are minimums, otherwise equality; an absent key
fails. -/
def checkGoalEntry (s : State) (kv : String × Value) : Bool :=
  match getVal s kv.1 with
  | some cv =>
    if kv.2.isNumeric && cv.isNumeric then
      if kv.2.toRat = 0 ∧ cv.toRat ≤ (5 : ℚ)/100 then true
      else if 0 < kv.2.toRat ∧ kv.2.toRat ≤ cv.toRat then true
      else decide (cv.toRat = kv.2.toRat)
    else decide (cv = kv.2)
  | none => false

/-- Embeds `GOAPPlanner._check_goal`. -/
def checkGoal (s goal : State) : Bool :=
  goal.all (checkGoalEntry s)

/-- Embeds `GOAPPlanner._heuristic`: the number of unmet goal conditions (same
per-entry rule as `_check_goal`). -/
def heuristic (s goal : State) : ℚ :=
  ((goal.countP fun kv => ! checkGoalEntry s kv : Nat) : ℚ)

/-- Embeds `GOAPPlanner`: the action list and the depth bound. The plan cache is
process state and is threaded explicitly (see `GOAPPlanner.plan`). -/
structure GOAPPlanner where
  actions : List Action
  max_depth : Nat

/-- Embeds `next((a for a in self.actions if a.name == action_name), None)`. -/
def findAction (acts : List Action) (nm : String) : Option Action :=
  acts.find? fun a => decide (a.name = nm)

/-- The replay loop of `GOAPPlanner.validate_plan`. -/
def GOAPPlanner.validateFrom (P : GOAPPlanner) (goal : State) :
    List String → State → Bool
  | [], cur => checkGoal cur goal
  | nm :: rest, cur =>
    match findAction P.actions nm with
    | none => false
    | some a =>
      if a.is_valid cur then P.validateFrom goal rest (a.apply cur) else false

/-- Embeds `GOAPPlanner.validate_plan`: replay the plan from the start state,
failing on an unknown name or an unmet precondition, then check the goal. -/
def GOAPPlanner.validate_plan (P : GOAPPlanner) (plan : List String)
    (start goal : State) : Bool :=
  P.validateFrom goal plan start

/-- Embeds `GOAPPlanner.get_plan_cost`: sum declared costs, unknown names
contribute nothing. -/
def GOAPPlanner.get_plan_cost (P : GOAPPlanner) (plan : List String) : ℚ :=
  plan.foldl (fun tc nm =>
    match findAction P.actions nm with
    | some a => tc + a.cost
    | none => tc) 0

/-!
## Economic planner (`planning/economic_planner.py`)

The strategist reads a fixed set of paths out of the agent/world snapshot
dicts (`npc_state['skills']`, `npc_state['stats']['money']`,
`npc_state['inventory']`, `world_state['market_prices']`,
`world_state['resources']`, `world_state['quest_board']`); the embedding
gives those paths as structure fields, each inner dict again an
association list.  `QInf` adjoins Python's `float('inf')`, produced when
the gold-earning rate is non-positive.
-/

/-- Embeds `d.get(k, default)` for a numeric-valued dict. -/
def lookupD (l : List (String × ℚ)) (k : String) (d : ℚ) : ℚ :=
  match l.find? (fun kv => decide (kv.1 = k)) with
  | some kv => kv.2
  | none => d

/-- The agent-state fields read by `EconomicPlanner`. -/
structure NpcState where
  skills : List (String × ℚ)
  money : ℚ
  inventory : List (String × ℚ)
deriving DecidableEq, Repr

/-- One quest-board order; only `type` and `item` are read. -/
structure Order where
  type : String
  item : String
deriving DecidableEq, Repr

/-- The world-snapshot fields read by `EconomicPlanner`; of `resources`
only the key set matters (`len(resources)`). -/
structure WorldState where
  market_prices : List (String × ℚ)
  resources : List String
  quest_board : List Order
deriving DecidableEq, Repr

/-- A rational extended with `float('inf')`. -/
inductive QInf where
  | fin (q : ℚ)
  | inf
deriving DecidableEq, Repr

/-- Multiply by a (finite) rational on the right; `inf * c = inf`. -/
def QInf.scale : QInf → ℚ → QInf
  | .fin q, c => .fin (q * c)
  | .inf, _ => .inf

/-- Add a finite rational; `inf + c = inf`. -/
def QInf.addQ : QInf → ℚ → QInf
  | .fin q, c => .fin (q + c)
  | .inf, _ => .inf

/-- Divide by a (positive, finite) rational; `inf / c = inf`. -/
def QInf.divQ : QInf → ℚ → QInf
  | .fin q, c => .fin (q / c)
  | .inf, _ => .inf

/-- Embeds `x < c` with `x` possibly infinite: `inf < c` is false. -/
def QInf.ltQ : QInf → ℚ → Bool
  | .fin q, c => decide (q < c)
  | .inf, _ => false

/-- Embeds `c < x` with `x` possibly infinite: `c < inf` is true. -/
def qLtQInf (c : ℚ) : QInf → Bool
  | .fin q => decide (c < q)
  | .inf => true

/-- Embeds `self.BASE_CRAFT_TIME`. -/
def BASE_CRAFT_TIME : ℚ := 10
/-- Embeds `self.BASE_WORK_TIME`. -/
def BASE_WORK_TIME : ℚ := 20
/-- Embeds `self.MIN_SKILL_FOR_QUALITY`. -/
def MIN_SKILL_FOR_QUALITY : ℚ := 50

/-- Embeds `EconomicPlanner.evaluate_craft_path`'s result dict. -/
structure CraftEval where
  feasible : Bool
  time_cost : ℚ
  success_probability : ℚ
  expected_quality : ℚ
  total_cost : ℚ
  risks : List String
deriving DecidableEq, Repr

/-- Embeds `EconomicPlanner.evaluate_work_and_buy_path`'s result dict. -/
structure WorkEval where
  feasible : Bool
  time_cost : QInf
  best_profession : String
  gold_needed : ℚ
  work_time : QInf
  total_cost : QInf
  guaranteed_quality : Bool
deriving DecidableEq, Repr

/-- Embeds `EconomicPlanner._check_materials`: wood or ore in the inventory. -/
def check_materials (item : String) (npc : NpcState) : Bool :=
  decide (0 < lookupD npc.inventory "wood" 0) ||
    decide (0 < lookupD npc.inventory "ore" 0)

/-- Embeds `EconomicPlanner._can_gather_materials`: any resource in the world. -/
def can_gather_materials (item : String) (world : WorldState) : Bool :=
  decide (0 < world.resources.length)

/-- Embeds `EconomicPlanner._check_market_availability`: returns `True` on a sell
order for the item, and `True` when the loop finds none ("assume tavern
has basic items"). -/
def check_market_availability (item : String) (world : WorldState) : Bool :=
  match world.quest_board.find?
      (fun o => decide (o.type = "sell") && decide (o.item = item)) with
  | some _ => true
  | none => true

/-- Python `max(items, key=...)`: keep the first maximum. -/
def maxPair (a b : String × ℚ) : String × ℚ :=
  if b.2 > a.2 then b else a

/-- Embeds `EconomicPlanner._get_best_profession`: best of
gathering/crafting/trading, default `('gathering', 0)`. -/
def get_best_profession (skills : List (String × ℚ)) : String × ℚ :=
  if skills = [] then ("gathering", 0)
  else
    maxPair (maxPair ("gathering", lookupD skills "gathering" 0)
                     ("crafting", lookupD skills "crafting" 0))
            ("trading", lookupD skills "trading" 0)

/-- Embeds `EconomicPlanner.evaluate_craft_path`. -/
def evaluate_craft_path (item : String) (npc : NpcState) (world : WorldState) :
    CraftEval :=
  let crafting_skill := lookupD npc.skills "crafting" 0
  let has_materials := check_materials item npc
  let success_prob := min 0.95 (0.3 + (crafting_skill / 100) * 0.65)
  let expected_quality := min 1.0 (crafting_skill / 100)
  let skill_modifier := 1.0 - crafting_skill / 200
  let time_cost0 := BASE_CRAFT_TIME * skill_modifier
  let risks1 : List String :=
    if ! has_materials then ["missing_materials"] else []
  let time_cost := if ! has_materials then time_cost0 + 20 else time_cost0
  let risks2 :=
    if crafting_skill < MIN_SKILL_FOR_QUALITY
    then risks1 ++ ["low_quality_risk"] else risks1
  let risks :=
    if success_prob < 0.7 then risks2 ++ ["high_failure_risk"] else risks2
  let risk_penalty := (risks.length : ℚ) * 5
  { feasible := has_materials || can_gather_materials item world
    time_cost := time_cost
    success_probability := success_prob
    expected_quality := expected_quality
    total_cost := time_cost + risk_penalty
    risks := risks }

/-- Embeds `EconomicPlanner.evaluate_work_and_buy_path`. -/
def evaluate_work_and_buy_path (item : String) (npc : NpcState)
    (world : WorldState) : WorkEval :=
  let item_price := lookupD world.market_prices item 50
  let item_available := check_market_availability item world
  let bp := get_best_profession npc.skills
  let gold_per_work := 5 + bp.2 / 10
  let gold_needed := max 0 (item_price - npc.money)
  let work_sessions : QInf :=
    if 0 < gold_per_work then .fin (gold_needed / gold_per_work) else .inf
  let work_time := work_sessions.scale BASE_WORK_TIME
  let time_cost := work_time.addQ 5
  { feasible := item_available
    time_cost := time_cost
    best_profession := bp.1
    gold_needed := gold_needed
    work_time := work_time
    total_cost := time_cost
    guaranteed_quality := true }

/-- The evaluation dict returned with the chosen strategy. -/
inductive AcqDetails where
  | craft (e : CraftEval)
  | work (e : WorkEval)
deriving DecidableEq, Repr

/-- Embeds `EconomicPlanner.get_acquisition_plan`: the ordered decision ladder.
Priority 3's nested `if` falls through to priority 4 when craft is
reliable but not faster, which the flattened conjunction reproduces. -/
def get_acquisition_plan (item : String) (npc : NpcState)
    (world : WorldState) : String × AcqDetails :=
  let ce := evaluate_craft_path item npc world
  let we := evaluate_work_and_buy_path item npc world
  if ce.feasible = false then ("work_and_buy", .work we)
  else if we.feasible = false then ("craft", .craft ce)
  else
    let craft_risky := decide (ce.success_probability < 0.7)
    let craft_low_quality := decide (ce.expected_quality < 0.6)
    let time_ratio := we.time_cost.divQ (max ce.time_cost 1)
    if ce.success_probability < 0.5 ∨ ce.expected_quality < 0.4 then
      ("work_and_buy", .work we)
    else if (craft_risky || craft_low_quality) && time_ratio.ltQ 3 then
      ("work_and_buy", .work we)
    else if 0.8 < ce.success_probability ∧ 0.7 < ce.expected_quality
        ∧ qLtQInf ce.time_cost we.time_cost then
      ("craft", .craft ce)
    else if craft_risky then ("work_and_buy", .work we)
    else if qLtQInf ce.total_cost we.total_cost then ("craft", .craft ce)
    else ("work_and_buy", .work we)

/-- Which rung of `get_acquisition_plan`'s ladder fires. -/
inductive AcqBranch where
  | craftInfeasible
  | workInfeasible
  | veryRisky
  | riskyAndWorkNotSlow
  | reliableFast
  | defaultRisky
  | lowerCraftCost
  | lowerWorkCost
deriving DecidableEq, Repr

/-- The same ladder as `get_acquisition_plan`, returning the rung. -/
def acquisitionBranch (item : String) (npc : NpcState)
    (world : WorldState) : AcqBranch :=
  let ce := evaluate_craft_path item npc world
  let we := evaluate_work_and_buy_path item npc world
  if ce.feasible = false then .craftInfeasible
  else if we.feasible = false then .workInfeasible
  else
    let craft_risky := decide (ce.success_probability < 0.7)
    let craft_low_quality := decide (ce.expected_quality < 0.6)
    let time_ratio := we.time_cost.divQ (max ce.time_cost 1)
    if ce.success_probability < 0.5 ∨ ce.expected_quality < 0.4 then
      .veryRisky
    else if (craft_risky || craft_low_quality) && time_ratio.ltQ 3 then
      .riskyAndWorkNotSlow
    else if 0.8 < ce.success_probability ∧ 0.7 < ce.expected_quality
        ∧ qLtQInf ce.time_cost we.time_cost then
      .reliableFast
    else if craft_risky then .defaultRisky
    else if qLtQInf ce.total_cost we.total_cost then .lowerCraftCost
    else .lowerWorkCost

/-- The strategy/details pair each rung returns, given both evaluations. -/
def branchOutcome (ce : CraftEval) (we : WorkEval) :
    AcqBranch → String × AcqDetails
  | .craftInfeasible => ("work_and_buy", .work we)
  | .workInfeasible => ("craft", .craft ce)
  | .veryRisky => ("work_and_buy", .work we)
  | .riskyAndWorkNotSlow => ("work_and_buy", .work we)
  | .reliableFast => ("craft", .craft ce)
  | .defaultRisky => ("work_and_buy", .work we)
  | .lowerCraftCost => ("craft", .craft ce)
  | .lowerWorkCost => ("work_and_buy", .work we)

/-!
## The A* search of `GOAPPlanner.plan`

Python's priority queue holds tuples `(f, g, depth, count, state, plan)`
compared lexicographically; the strictly increasing `count` makes every
tie break before the state/plan components are reached, so comparison up
to `count` is total.  The visited set and the plan cache key states by
`tuple(sorted(state.items()))`; Python's `==`/`hash` identify `True` with
`1`, so the canonical key maps each value to its numeric content.  The
loop is embedded with explicit fuel; `planFuel` is enough fuel for the
loop to finish on every input (theorem `plan_search_terminates`).
-/

/-- A canonical state snapshot: `tuple(sorted(state.items()))` with values
collapsed to their numeric content (Python hashes `True` and `1` alike). -/
abbrev SKey := List (String × ℚ)

/-- The items of a state with values taken to their numeric content. -/
def ratPairs (s : State) : SKey :=
  s.map fun kv => (kv.1, kv.2.toRat)

/-- Python's `<`/`==` on the `(key, value)` tuples being sorted: lex order
on the key string, then the numeric value. -/
def keyLE (a b : String × ℚ) : Prop :=
  a.1 < b.1 ∨ (a.1 = b.1 ∧ a.2 ≤ b.2)

instance : DecidableRel keyLE := fun a b => by
  unfold keyLE; infer_instance

/-- Embeds `tuple(sorted(state.items()))`. -/
def stateKey (s : State) : SKey :=
  List.insertionSort keyLE (ratPairs s)

/-- A frontier entry `(f_cost, g_cost, depth, count, current_state, plan)`. -/
structure Node where
  f : ℚ
  g : ℚ
  depth : Nat
  count : Nat
  state : State
  plan : List String
deriving Repr

/-- Lexicographic tuple comparison up to the tie-breaking counter. -/
def nodeLE (a b : Node) : Bool :=
  decide (a.f < b.f) ||
    (decide (a.f = b.f) &&
      (decide (a.g < b.g) ||
        (decide (a.g = b.g) &&
          (decide (a.depth < b.depth) ||
            (decide (a.depth = b.depth) && decide (a.count ≤ b.count))))))

/-- Embeds `heapq.heappop`: remove the least node (first such, though `count`
makes ties impossible between distinct pushes). -/
def popMin : List Node → Option (Node × List Node)
  | [] => none
  | n :: rest =>
    match popMin rest with
    | none => some (n, [])
    | some (m, rest') => if nodeLE n m then some (n, rest) else some (m, n :: rest')

/-- The push loop over `self.actions`: one child per valid action, with
the tie-break counter threaded through (`count += 1` before each push). -/
def expandNode (goal : State) (n : Node) : List Action → Nat → List Node × Nat
  | [], count => ([], count)
  | a :: rest, count =>
    if a.is_valid n.state then
      let new_state := a.apply n.state
      let new_g := n.g + a.cost
      let new_f := new_g + heuristic new_state goal
      let count' := count + 1
      let child : Node :=
        { f := new_f, g := new_g, depth := n.depth + 1, count := count'
          state := new_state, plan := n.plan ++ [a.name] }
      let res := expandNode goal n rest count'
      (child :: res.1, res.2)
    else expandNode goal n rest count

/-- How `GOAPPlanner.plan`'s loop ends: the goal branch returns a plan,
frontier exhaustion falls through to `return []`. -/
inductive SearchOutcome where
  | found (plan : List String)
  | exhausted
deriving DecidableEq, Repr

/-- The `while queue:` loop of `GOAPPlanner.plan`, with explicit fuel
(`none` = fuel ran out; `plan_search_terminates` shows `planFuel` always
suffices). -/
def searchLoop (P : GOAPPlanner) (goal : State) :
    Nat → List Node → List SKey → Nat → Option SearchOutcome
  | 0, _, _, _ => none
  | fuel + 1, queue, visited, count =>
    match popMin queue with
    | none => some .exhausted
    | some (n, rest) =>
      if checkGoal n.state goal then some (.found n.plan)
      else if P.max_depth ≤ n.depth then searchLoop P goal fuel rest visited count
      else if stateKey n.state ∈ visited then searchLoop P goal fuel rest visited count
      else
        let ex := expandNode goal n P.actions count
        searchLoop P goal fuel (rest ++ ex.1) (stateKey n.state :: visited) ex.2

/-- All states reachable from `s` by at most `d` applications of actions
from `acts` (an overapproximation used only to size the fuel). -/
def reachStates (acts : List Action) : Nat → State → List State
  | 0, s => [s]
  | d + 1, s =>
    let r := reachStates acts d s
    r ++ r.flatMap fun st => acts.map fun a => a.apply st

/-- Enough fuel for the search loop on this input: every expansion
consumes an unvisited state key reachable within `max_depth - 1` steps,
and each expansion pushes at most `|actions|` nodes. -/
def planFuel (P : GOAPPlanner) (start : State) : Nat :=
  1 + (P.actions.length + 1) * (reachStates P.actions (P.max_depth - 1) start).length + 2

/-- The initial frontier entry `(h_start, 0, 0, 0, start_state, [])`. -/
def initNode (start goal : State) : Node :=
  { f := heuristic start goal, g := 0, depth := 0, count := 0
    state := start, plan := [] }

/-- The search part of `GOAPPlanner.plan` (everything after the cache
check), run with sufficient fuel. -/
def GOAPPlanner.planCore (P : GOAPPlanner) (start goal : State) :
    Option SearchOutcome :=
  searchLoop P goal (planFuel P start) [initNode start goal] [] 0

/-- The plan cache `self.plan_cache`, threaded explicitly: a dict keyed by
`(sorted start items, sorted goal items)`. -/
abbrev Cache := List ((SKey × SKey) × List String)

/-- The cache key of one call. -/
def cacheKey (start goal : State) : SKey × SKey :=
  (stateKey start, stateKey goal)

/-- Cache lookup (`self.plan_cache` is a dict; first binding wins). -/
def lookupC : Cache → SKey × SKey → Option (List String)
  | [], _ => none
  | e :: rest, k => if e.1 = k then some e.2 else lookupC rest k

/-- Cache assignment (replace in place, else append). -/
def insertC : Cache → SKey × SKey → List String → Cache
  | [], k, v => [(k, v)]
  | e :: rest, k, v => if e.1 = k then (k, v) :: rest else e :: insertC rest k v

/-- Embeds `GOAPPlanner.plan`: cache check, then the search; a found plan is
cached, a failed search returns `[]` without caching. -/
def GOAPPlanner.plan (P : GOAPPlanner) (cache : Cache) (start goal : State) :
    List String × Cache :=
  let key := cacheKey start goal
  match lookupC cache key with
  | some p => (p, cache)
  | none =>
    match P.planCore start goal with
    | some (.found p) => (p, insertC cache key p)
    | _ => ([], cache)

/-- A sequence of `plan` calls against one planner, threading the cache. -/
def GOAPPlanner.planTrace (P : GOAPPlanner) : List (State × State) → Cache → List (List String)
  | [], _ => []
  | (s, g) :: rest, c =>
    let r := P.plan c s g
    r.1 :: P.planTrace rest r.2

/-- The fixed other-state of spec §8 Scenarios C/D (mirroring the repo's
economic-planner test): gathering 70, trading 30, 10 gold, 5 wood, only the
crafting skill varies. -/
def scenarioNpc (c : ℚ) : NpcState :=
  { skills := [("crafting", c), ("gathering", 70), ("trading", 30)]
    money := 10
    inventory := [("wood", 5)] }

/-- The fixed world snapshot of Scenarios C/D: the sword is priced at 50,
one resource, empty quest board. -/
def scenarioWorld : WorldState :=
  { market_prices := [("sword", 50)], resources := ["tree_1"], quest_board := [] }

/-- C2: with the agent's other state and the world snapshot fixed (the
sword is priced in the market and the agent holds gold), crafting skill 20
yields strategy `work_and_buy` and crafting skill 85 yields `craft`. -/
theorem acquisition_skill_flip :
    (get_acquisition_plan "sword" (scenarioNpc 20) scenarioWorld).1 = "work_and_buy" ∧
    (get_acquisition_plan "sword" (scenarioNpc 85) scenarioWorld).1 = "craft" := by
  constructor <;>
  · simp [get_acquisition_plan, evaluate_craft_path, evaluate_work_and_buy_path,
      check_materials, can_gather_materials, check_market_availability,
      get_best_profession, maxPair, lookupD, scenarioNpc, scenarioWorld,
      BASE_CRAFT_TIME, BASE_WORK_TIME, MIN_SKILL_FOR_QUALITY,
      List.find?, QInf.divQ, QInf.scale, QInf.addQ, QInf.ltQ, qLtQInf]
    norm_num

/-- C5: `evaluate_craft_path` returns success probability
`min 0.95 (0.3 + c/100 * 0.65)`, expected quality `min 1 (c/100)`, time
cost `10 * (1 - c/200)` plus 20 exactly when materials are absent, one
risk flag each for missing materials, skill under 50, and success
probability under 0.7, and total cost `time + 5 * number of flags`. -/
theorem craft_eval_formulas (item : String) (npc : NpcState) (world : WorldState) :
    (evaluate_craft_path item npc world).success_probability =
      min 0.95 (0.3 + lookupD npc.skills "crafting" 0 / 100 * 0.65) ∧
    (evaluate_craft_path item npc world).expected_quality =
      min 1 (lookupD npc.skills "crafting" 0 / 100) ∧
    (evaluate_craft_path item npc world).time_cost =
      10 * (1 - lookupD npc.skills "crafting" 0 / 200) +
        (if check_materials item npc then 0 else 20) ∧
    (evaluate_craft_path item npc world).risks =
      (if check_materials item npc then [] else ["missing_materials"]) ++
      (if lookupD npc.skills "crafting" 0 < 50 then ["low_quality_risk"] else []) ++
      (if (evaluate_craft_path item npc world).success_probability < 0.7
        then ["high_failure_risk"] else []) ∧
    (evaluate_craft_path item npc world).total_cost =
      (evaluate_craft_path item npc world).time_cost +
        5 * ((evaluate_craft_path item npc world).risks.length : ℚ) := by
  by_cases hm : check_materials item npc <;>
    by_cases h50 : lookupD npc.skills "crafting" 0 < 50 <;>
      by_cases h07 : min (0.95:ℚ) (0.3 + lookupD npc.skills "crafting" 0 / 100 * 0.65) < 0.7 <;>
        simp [evaluate_craft_path, BASE_CRAFT_TIME, MIN_SKILL_FOR_QUALITY,
          hm, h50, h07] <;> norm_num

/-- C9 (implicit): `_check_market_availability` returns true on every
input, so `evaluate_work_and_buy_path` is always feasible and the
work-and-buy-infeasible rung of `get_acquisition_plan`'s ladder (which
would return `craft`) can never fire; `branchOutcome` ties the rung tags
to the function's actual result. -/
theorem work_and_buy_always_feasible (item : String) (npc : NpcState)
    (world : WorldState) :
    (evaluate_work_and_buy_path item npc world).feasible = true ∧
    acquisitionBranch item npc world ≠ AcqBranch.workInfeasible ∧
    get_acquisition_plan item npc world =
      branchOutcome (evaluate_craft_path item npc world)
        (evaluate_work_and_buy_path item npc world)
        (acquisitionBranch item npc world) := by
  have hfeas : (evaluate_work_and_buy_path item npc world).feasible = true := by
    simp only [evaluate_work_and_buy_path, check_market_availability]
    split <;> rfl
  refine ⟨hfeas, ?_, ?_⟩
  · simp only [acquisitionBranch, hfeas]
    split_ifs <;> simp_all
  · simp only [acquisitionBranch, get_acquisition_plan]
    split_ifs <;> rfl

/-!
## Termination of the search loop
-/

theorem popMin_eq_none : ∀ {q : List Node}, popMin q = none → q = [] := by
  intro q h
  cases q with
  | nil => rfl
  | cons x rest =>
    rw [popMin] at h
    cases hrec : popMin rest with
    | none => rw [hrec] at h; simp at h
    | some mr =>
      rw [hrec] at h
      by_cases hle : nodeLE x mr.1 <;> simp [hle] at h

theorem popMin_perm : ∀ {q : List Node} {n : Node} {r : List Node},
    popMin q = some (n, r) → q.Perm (n :: r) := by
  intro q
  induction q with
  | nil => intro n r h; simp [popMin] at h
  | cons x rest ih =>
    intro n r h
    rw [popMin] at h
    cases hrec : popMin rest with
    | none =>
      have hre : rest = [] := popMin_eq_none hrec
      rw [hrec] at h
      simp only [Option.some.injEq, Prod.mk.injEq] at h
      obtain ⟨rfl, rfl⟩ := h
      rw [hre]
    | some mr =>
      rw [hrec] at h
      have ihp : rest.Perm (mr.1 :: mr.2) := ih (by rw [hrec])
      by_cases hle : nodeLE x mr.1
      · simp only [hle, if_true, Option.some.injEq, Prod.mk.injEq] at h
        obtain ⟨rfl, rfl⟩ := h
        exact List.Perm.refl _
      · simp only [hle, if_false, Option.some.injEq, Prod.mk.injEq] at h
        obtain ⟨rfl, rfl⟩ := h
        exact List.Perm.trans (List.Perm.cons x ihp) (List.Perm.swap _ _ _)

theorem expandNode_mem {goal : State} {n : Node} :
    ∀ {acts : List Action} {count : Nat} {m : Node},
      m ∈ (expandNode goal n acts count).1 →
      ∃ a ∈ acts, a.is_valid n.state = true ∧ m.state = a.apply n.state ∧
        m.depth = n.depth + 1 ∧ m.plan = n.plan ++ [a.name]
  | [], count, m => by simp [expandNode]
  | a :: rest, count, m => by
    intro hm
    simp only [expandNode] at hm
    by_cases hv : a.is_valid n.state
    · simp only [hv, if_true, List.mem_cons] at hm
      rcases hm with hm | hm
      · exact ⟨a, List.mem_cons_self a rest, hv, by simp [hm]⟩
      · obtain ⟨b, hb, h⟩ := expandNode_mem hm
        exact ⟨b, List.mem_cons_of_mem a hb, h⟩
    · simp only [hv, if_false] at hm
      obtain ⟨b, hb, h⟩ := expandNode_mem hm
      exact ⟨b, List.mem_cons_of_mem a hb, h⟩

theorem expandNode_length {goal : State} {n : Node} :
    ∀ {acts : List Action} {count : Nat},
      (expandNode goal n acts count).1.length ≤ acts.length := by
  intro acts
  induction acts with
  | nil => intro count; simp [expandNode]
  | cons a rest ih =>
    intro count
    by_cases hv : a.is_valid n.state
    · simp only [expandNode, hv, if_true, List.length_cons]
      exact Nat.succ_le_succ ih
    · simp only [expandNode, hv, if_false, List.length_cons]
      exact Nat.le_succ_of_le ih

theorem reachStates_subset_succ {acts : List Action} {d : Nat} {s x : State}
    (hx : x ∈ reachStates acts d s) : x ∈ reachStates acts (d + 1) s := by
  simp only [reachStates]
  exact List.mem_append_left _ hx

theorem reachStates_mono {acts : List Action} {s x : State} :
    ∀ {d d' : Nat}, d ≤ d' → x ∈ reachStates acts d s → x ∈ reachStates acts d' s := by
  intro d d' h hx
  induction d' with
  | zero => simpa [Nat.le_zero.mp h] using hx
  | succ k ih =>
    rcases Nat.lt_or_ge d (k + 1) with hlt | hge
    · exact reachStates_subset_succ (ih (Nat.lt_succ_iff.mp hlt))
    · have : d = k + 1 := Nat.le_antisymm h hge
      subst this; exact hx

theorem apply_mem_reachStates {acts : List Action} {d : Nat} {s st : State}
    {a : Action} (hst : st ∈ reachStates acts d s) (ha : a ∈ acts) :
    a.apply st ∈ reachStates acts (d + 1) s := by
  simp only [reachStates]
  refine List.mem_append_right _ ?_
  simp only [List.mem_flatMap]
  exact ⟨st, hst, List.mem_map.mpr ⟨a, ha, rfl⟩⟩

/-- The state keys an expansion can consume: states reachable within
`max_depth - 1` steps of the start. -/
def reachKeys (P : GOAPPlanner) (start : State) : Finset SKey :=
  ((reachStates P.actions (P.max_depth - 1) start).map stateKey).toFinset

/-- Decreasing measure of the search loop. -/
def phi (P : GOAPPlanner) (start : State) (queue : List Node)
    (visited : List SKey) : Nat :=
  queue.length +
    (P.actions.length + 1) * ((reachKeys P start).filter (fun k => k ∉ visited)).card

theorem searchLoop_isSome (P : GOAPPlanner) (start goal : State) :
    ∀ (fuel : Nat) (queue : List Node) (visited : List SKey) (count : Nat),
      (∀ n ∈ queue, n.state ∈ reachStates P.actions n.depth start) →
      phi P start queue visited < fuel →
      (searchLoop P goal fuel queue visited count).isSome = true := by
  intro fuel
  induction fuel with
  | zero => intro queue visited count _ h; omega
  | succ fuel ih =>
    intro queue visited count hinv hphi
    rw [searchLoop]
    cases hpop : popMin queue with
    | none => simp
    | some nr =>
      obtain ⟨n, rest⟩ := nr
      have hperm := popMin_perm hpop
      have hlen : queue.length = rest.length + 1 := by
        simpa using hperm.length_eq
      have hmemq : ∀ m ∈ rest, m ∈ queue := fun m hm =>
        hperm.mem_iff.mpr (List.mem_cons_of_mem n hm)
      have hn : n ∈ queue := hperm.mem_iff.mpr (List.mem_cons_self n rest)
      by_cases hgoal : checkGoal n.state goal
      · simp [hgoal]
      · simp only [hgoal, if_false]
        by_cases hdepth : P.max_depth ≤ n.depth
        · simp only [hdepth, if_true]
          refine ih rest visited count (fun m hm => hinv m (hmemq m hm)) ?_
          simp only [phi] at hphi ⊢
          omega
        · simp only [hdepth, if_false]
          by_cases hvis : stateKey n.state ∈ visited
          · simp only [hvis, if_true]
            refine ih rest visited count (fun m hm => hinv m (hmemq m hm)) ?_
            simp only [phi] at hphi ⊢
            omega
          · simp only [hvis, if_false]
            have hreachn : n.state ∈ reachStates P.actions (P.max_depth - 1) start :=
              reachStates_mono (by omega) (hinv n hn)
            have hskmem : stateKey n.state ∈ reachKeys P start := by
              simp only [reachKeys, List.mem_toFinset]
              exact List.mem_map.mpr ⟨n.state, hreachn, rfl⟩
            refine ih _ _ _ ?_ ?_
            · intro m hm
              rcases List.mem_append.mp hm with hm | hm
              · exact hinv m (hmemq m hm)
              · obtain ⟨a, ha, hvalid, hstate, hdep, hplan⟩ := expandNode_mem hm
                rw [hstate, hdep]
                exact apply_mem_reachStates (hinv n hn) ha
            · simp only [phi] at hphi ⊢
              have herase :
                  (reachKeys P start).filter
                      (fun k => k ∉ stateKey n.state :: visited) =
                    ((reachKeys P start).filter (fun k => k ∉ visited)).erase
                      (stateKey n.state) := by
                ext k
                simp only [Finset.mem_filter, Finset.mem_erase, List.mem_cons]
                constructor
                · rintro ⟨hk, hnot⟩
                  push_neg at hnot
                  exact ⟨hnot.1, hk, hnot.2⟩
                · rintro ⟨hne, hk, hnot⟩
                  exact ⟨hk, by push_neg; exact ⟨hne, hnot⟩⟩
              have hskS : stateKey n.state ∈
                  (reachKeys P start).filter (fun k => k ∉ visited) :=
                Finset.mem_filter.mpr ⟨hskmem, by simpa using hvis⟩
              rw [herase, Finset.card_erase_of_mem hskS]
              have hcardpos :
                  1 ≤ ((reachKeys P start).filter (fun k => k ∉ visited)).card :=
                Finset.card_pos.mpr ⟨_, hskS⟩
              have hexlen : (expandNode goal n P.actions count).1.length ≤
                  P.actions.length := expandNode_length
              set A := P.actions.length
              set S := ((reachKeys P start).filter (fun k => k ∉ visited)).card
              have hmul : (A + 1) * (S - 1) + (A + 1) * 1 = (A + 1) * S := by
                rw [← Nat.mul_add]
                congr 1
                omega
              simp only [List.length_append]
              omega

/-- C3: the search loop of `plan` always terminates: run with the
explicitly computed fuel `planFuel`, it reaches the goal branch, the
frontier-exhaustion branch, or prunes every branch at the depth bound,
and never runs out of fuel; the embedding is total, so no input can make
the loop run forever or raise. -/
theorem plan_search_terminates (P : GOAPPlanner) (start goal : State) :
    ∃ r : SearchOutcome, P.planCore start goal = some r := by
  rw [← Option.isSome_iff_exists]
  refine searchLoop_isSome P start goal _ _ _ _ ?_ ?_
  · intro n hn
    simp only [List.mem_singleton] at hn
    subst hn
    simp [initNode, reachStates]
  · simp only [phi, planFuel, List.length_singleton]
    have h1 : ((reachKeys P start).filter
        (fun k => k ∉ ([] : List SKey))).card ≤ (reachKeys P start).card := by
      exact Finset.card_filter_le _ _
    have h2 : (reachKeys P start).card ≤
        (reachStates P.actions (P.max_depth - 1) start).length := by
      simpa [reachKeys] using
        List.toFinset_card_le ((reachStates P.actions (P.max_depth - 1) start).map stateKey)
    have h3 := Nat.mul_le_mul_left (P.actions.length + 1) (Nat.le_trans h1 h2)
    omega

/-!
## Soundness of found plans
-/

/-- A stepwise-valid run: each action's preconditions hold when it fires,
and the fold of `apply` ends in `fin`. -/
def runOK : State → List Action → State → Prop
  | s, [], fin => fin = s
  | s, a :: rest, fin => a.is_valid s = true ∧ runOK (a.apply s) rest fin

/-- Frontier invariant: each node's plan is a stepwise-valid run from the
start built from registered actions, with plan length equal to its depth,
bounded by the depth limit. -/
def NodeOK (P : GOAPPlanner) (start : State) (n : Node) : Prop :=
  n.plan.length = n.depth ∧ n.depth ≤ P.max_depth ∧
  ∃ acts : List Action, (∀ a ∈ acts, a ∈ P.actions) ∧
    n.plan = acts.map Action.name ∧ runOK start acts n.state

theorem runOK_append {a : Action} :
    ∀ {acts : List Action} {s fin : State},
      runOK s acts fin → a.is_valid fin = true →
      runOK s (acts ++ [a]) (a.apply fin) := by
  intro acts
  induction acts with
  | nil =>
    intro s fin h hv
    obtain rfl := h
    exact ⟨hv, rfl⟩
  | cons b rest ih =>
    intro s fin h hv
    exact ⟨h.1, ih h.2 hv⟩

theorem searchLoop_found (P : GOAPPlanner) (start goal : State) :
    ∀ (fuel : Nat) (queue : List Node) (visited : List SKey) (count : Nat)
      (p : List String),
      (∀ n ∈ queue, NodeOK P start n) →
      searchLoop P goal fuel queue visited count = some (.found p) →
      ∃ (st : State) (acts : List Action), (∀ a ∈ acts, a ∈ P.actions) ∧
        p = acts.map Action.name ∧ runOK start acts st ∧
        checkGoal st goal = true ∧ p.length ≤ P.max_depth := by
  intro fuel
  induction fuel with
  | zero => intro queue visited count p _ h; simp [searchLoop] at h
  | succ fuel ih =>
    intro queue visited count p hinv h
    rw [searchLoop] at h
    cases hpop : popMin queue with
    | none => rw [hpop] at h; simp at h
    | some nr =>
      obtain ⟨n, rest⟩ := nr
      rw [hpop] at h
      have hperm := popMin_perm hpop
      have hmemq : ∀ m ∈ rest, m ∈ queue := fun m hm =>
        hperm.mem_iff.mpr (List.mem_cons_of_mem n hm)
      have hn : n ∈ queue := hperm.mem_iff.mpr (List.mem_cons_self n rest)
      by_cases hgoal : checkGoal n.state goal
      · simp only [hgoal, if_true, Option.some.injEq] at h
        obtain ⟨hlen, hdep, acts, hmem, hplan, hrun⟩ := hinv n hn
        cases h
        exact ⟨n.state, acts, hmem, hplan, hrun, hgoal, by omega⟩
      · simp only [hgoal, if_false] at h
        by_cases hdepth : P.max_depth ≤ n.depth
        · rw [if_pos hdepth] at h
          exact ih rest visited count p (fun m hm => hinv m (hmemq m hm)) h
        · rw [if_neg hdepth] at h
          by_cases hvis : stateKey n.state ∈ visited
          · rw [if_pos hvis] at h
            exact ih rest visited count p (fun m hm => hinv m (hmemq m hm)) h
          · rw [if_neg hvis] at h
            refine ih _ _ _ p ?_ h
            intro m hm
            rcases List.mem_append.mp hm with hm | hm
            · exact hinv m (hmemq m hm)
            · obtain ⟨a, ha, hvalid, hstate, hdep, hplanm⟩ := expandNode_mem hm
              obtain ⟨hlen, hdepn, acts, hmemn, hplann, hrunn⟩ := hinv n hn
              refine ⟨?_, by omega, acts ++ [a], ?_, ?_, ?_⟩
              · simp [hplanm, hdep, hlen]
              · intro b hb
                rcases List.mem_append.mp hb with hb | hb
                · exact hmemn b hb
                · rw [List.mem_singleton.mp hb]; exact ha
              · simp [hplanm, hplann]
              · rw [hstate]
                exact runOK_append hrunn hvalid

theorem findAction_of_nodup :
    ∀ (acts : List Action), (acts.map Action.name).Nodup →
      ∀ a ∈ acts, findAction acts a.name = some a := by
  intro acts
  induction acts with
  | nil => intro _ a ha; simp at ha
  | cons b rest ih =>
    intro hnd a ha
    simp only [List.map_cons, List.nodup_cons] at hnd
    rcases List.mem_cons.mp ha with rfl | ha'
    · simp [findAction, List.find?]
    · have hne : ¬ b.name = a.name := by
        intro he
        exact hnd.1 (he ▸ List.mem_map.mpr ⟨a, ha', rfl⟩)
      unfold findAction
      rw [List.find?_cons_of_neg _ (by simp [hne])]
      exact ih hnd.2 a ha'

theorem validate_of_runOK {P : GOAPPlanner} {goal : State}
    (hnd : (P.actions.map Action.name).Nodup) :
    ∀ {acts : List Action} {s st : State},
      (∀ a ∈ acts, a ∈ P.actions) → runOK s acts st → checkGoal st goal = true →
      P.validateFrom goal (acts.map Action.name) s = true := by
  intro acts
  induction acts with
  | nil =>
    intro s st _ hrun hg
    obtain rfl := hrun
    simpa [GOAPPlanner.validateFrom] using hg
  | cons a rest ih =>
    intro s st hmem hrun hg
    have hfind := findAction_of_nodup P.actions hnd a (hmem a (List.mem_cons_self a rest))
    simp only [List.map_cons, GOAPPlanner.validateFrom, hfind, hrun.1, if_true]
    exact ih (fun b hb => hmem b (List.mem_cons_of_mem a hb)) hrun.2 hg

/-- The initial frontier satisfies the invariant. -/
theorem initNode_ok (P : GOAPPlanner) (start goal : State) :
    NodeOK P start (initNode start goal) :=
  ⟨rfl, Nat.zero_le _, [], by simp, rfl, rfl⟩

/-!
## States with equal canonical snapshots behave identically

The cache may serve a plan computed for a different but `==`-equal dict
(same sorted items, with Python's `True == 1`).  These lemmas show that
every operation the replay of a plan performs depends on a state only
through its numeric view `ratVal`, and that equal `stateKey`s of
duplicate-free states give equal numeric views.
-/

/-- The numeric view of a state: lookup followed by `toRat`. -/
def ratVal (s : State) (k : String) : Option ℚ :=
  (getVal s k).map Value.toRat

/-- Two states with the same numeric view. -/
def StateEquiv (s s' : State) : Prop :=
  ∀ k, ratVal s k = ratVal s' k

theorem all_congr_fun {α : Type} {p q : α → Bool} :
    ∀ {l : List α}, (∀ x ∈ l, p x = q x) → l.all p = l.all q := by
  intro l
  induction l with
  | nil => intro _; rfl
  | cons x rest ih =>
    intro h
    simp only [List.all_cons]
    rw [h x (List.mem_cons_self x rest),
      ih fun y hy => h y (List.mem_cons_of_mem x hy)]

theorem precondHolds_congr {s s' : State} (h : StateEquiv s s')
    (kv : String × Value) : precondHolds s kv = precondHolds s' kv := by
  have hk := h kv.1
  unfold ratVal at hk
  unfold precondHolds
  cases h1 : getVal s kv.1 with
  | none =>
    rw [h1] at hk
    cases h2 : getVal s' kv.1 with
    | none => rfl
    | some cv => rw [h2] at hk; exact absurd hk (by simp)
  | some cv =>
    rw [h1] at hk
    cases h2 : getVal s' kv.1 with
    | none => rw [h2] at hk; exact absurd hk (by simp)
    | some cv' =>
      rw [h2] at hk
      simp only [Option.map, Option.some.injEq] at hk
      simp [Value.isNumeric_eq_true, hk]

theorem is_valid_congr {s s' : State} (h : StateEquiv s s') (a : Action) :
    a.is_valid s = a.is_valid s' := by
  unfold Action.is_valid
  exact all_congr_fun fun kv _ => precondHolds_congr h kv

/-- Rephrases `checkGoalEntry` through the numeric view of state and target. -/
def goalEntryR (c : Option ℚ) (t : ℚ) : Bool :=
  match c with
  | some cq =>
    if t = 0 ∧ cq ≤ (5 : ℚ)/100 then true
    else if 0 < t ∧ t ≤ cq then true
    else decide (cq = t)
  | none => false

theorem checkGoalEntry_eq (s : State) (kv : String × Value) :
    checkGoalEntry s kv = goalEntryR (ratVal s kv.1) kv.2.toRat := by
  unfold checkGoalEntry goalEntryR ratVal
  cases h : getVal s kv.1 with
  | none => rfl
  | some cv => simp [Value.isNumeric_eq_true]

theorem all_of_perm {α : Type} (p : α → Bool) {l l' : List α}
    (h : l.Perm l') : l.all p = l'.all p := by
  induction h with
  | nil => rfl
  | cons x _ ih => simp [List.all_cons, ih]
  | swap x y l => simp [List.all_cons, Bool.and_left_comm]
  | trans _ _ ih1 ih2 => exact ih1.trans ih2

theorem all_map_fun {α β : Type} (f : α → β) (p : β → Bool) :
    ∀ (l : List α), (l.map f).all p = l.all fun x => p (f x) := by
  intro l
  induction l with
  | nil => rfl
  | cons x rest ih => simp only [List.map_cons, List.all_cons, ih]

theorem checkGoal_eq_ratPairs (s g : State) :
    checkGoal s g = (ratPairs g).all fun pr => goalEntryR (ratVal s pr.1) pr.2 := by
  unfold checkGoal ratPairs
  rw [all_map_fun]
  exact all_congr_fun fun kv _ => checkGoalEntry_eq s kv

theorem checkGoal_congr {s s' g g' : State} (hss : StateEquiv s s')
    (hgg : (ratPairs g).Perm (ratPairs g')) :
    checkGoal s g = checkGoal s' g' := by
  rw [checkGoal_eq_ratPairs, checkGoal_eq_ratPairs]
  rw [all_of_perm _ hgg]
  exact all_congr_fun fun pr _ => by rw [hss pr.1]

theorem ratVal_setVal (s : State) (k : String) (v : Value) (k' : String) :
    ratVal (setVal s k v) k' = if k = k' then some v.toRat else ratVal s k' := by
  unfold ratVal
  rw [getVal_setVal]
  by_cases h : k = k' <;> simp [h]

theorem getD_toRat (s : State) (k : String) :
    ((getVal s k).getD (.num 0)).toRat = (ratVal s k).getD 0 := by
  unfold ratVal
  cases h : getVal s k <;> simp [Value.toRat]

theorem isSome_getVal_eq (s : State) (k : String) :
    (getVal s k).isSome = (ratVal s k).isSome := by
  unfold ratVal
  cases h : getVal s k <;> simp

theorem applyEffect_congr {s s' : State} (h : StateEquiv s s')
    (kv : String × Value) : StateEquiv (applyEffect s kv) (applyEffect s' kv) := by
  intro k
  have hsome : (getVal s kv.1).isSome = (getVal s' kv.1).isSome := by
    rw [isSome_getVal_eq, isSome_getVal_eq, h kv.1]
  unfold applyEffect
  by_cases hc : (kv.2.isNumeric && (getVal s kv.1).isSome) = true
  · rw [if_pos hc, if_pos (by rw [← hsome]; exact hc)]
    rw [ratVal_setVal, ratVal_setVal, getD_toRat, getD_toRat, h kv.1]
    by_cases hk : kv.1 = k <;> simp [hk, h k]
  · rw [if_neg hc, if_neg (by rw [← hsome]; exact hc)]
    rw [ratVal_setVal, ratVal_setVal]
    by_cases hk : kv.1 = k <;> simp [hk, h k]

theorem apply_congr {s s' : State} (h : StateEquiv s s') (a : Action) :
    StateEquiv (a.apply s) (a.apply s') := by
  unfold Action.apply
  induction a.effects generalizing s s' with
  | nil => exact h
  | cons e rest ih => exact ih (applyEffect_congr h e)

theorem validateFrom_congr {P : GOAPPlanner} {g g' : State}
    (hgg : (ratPairs g).Perm (ratPairs g')) :
    ∀ (pl : List String) {s s' : State}, StateEquiv s s' →
      P.validateFrom g pl s = P.validateFrom g' pl s' := by
  intro pl
  induction pl with
  | nil => intro s s' hss; exact checkGoal_congr hss hgg
  | cons nm rest ih =>
    intro s s' hss
    unfold GOAPPlanner.validateFrom
    cases hf : findAction P.actions nm with
    | none => rfl
    | some a =>
      dsimp only
      rw [is_valid_congr hss a]
      by_cases hv : a.is_valid s' = true
      · rw [if_pos hv, if_pos hv]
        exact ih (apply_congr hss a)
      · rw [if_neg hv, if_neg hv]

theorem ratPairs_perm_of_stateKey_eq {s s' : State}
    (h : stateKey s = stateKey s') : (ratPairs s).Perm (ratPairs s') := by
  have h1 := List.perm_insertionSort keyLE (ratPairs s)
  have h2 := List.perm_insertionSort keyLE (ratPairs s')
  unfold stateKey at h
  rw [h] at h1
  exact h1.symm.trans h2

/-- First-occurrence lookup on a canonical snapshot. -/
def lookupR : SKey → String → Option ℚ
  | [], _ => none
  | kv :: rest, k => if kv.1 = k then some kv.2 else lookupR rest k

theorem ratVal_eq_lookupR : ∀ (s : State) (k : String),
    ratVal s k = lookupR (ratPairs s) k := by
  intro s
  induction s with
  | nil => intro k; rfl
  | cons kv rest ih =>
    intro k
    by_cases h : kv.1 = k
    · simp [ratVal, getVal, ratPairs, lookupR, h]
    · simp only [ratVal, getVal, ratPairs, List.map_cons, lookupR, h,
        if_false, ite_false]
      simpa [ratVal, ratPairs] using ih k

/-- Unique keys (Python dicts always satisfy this). -/
def NodupKeys {α : Type} (l : List (String × α)) : Prop :=
  (l.map Prod.fst).Nodup

instance {α : Type} [DecidableEq α] (l : List (String × α)) :
    Decidable (NodupKeys l) := by
  unfold NodupKeys; infer_instance

theorem nodupKeys_ratPairs {s : State} (h : NodupKeys s) :
    NodupKeys (ratPairs s) := by
  unfold NodupKeys ratPairs at *
  rw [List.map_map]
  exact h

theorem lookupR_mem : ∀ {l : SKey} {k : String} {q : ℚ},
    lookupR l k = some q → (k, q) ∈ l := by
  intro l
  induction l with
  | nil => intro k q h; simp [lookupR] at h
  | cons kv rest ih =>
    intro k q h
    unfold lookupR at h
    by_cases hk : kv.1 = k
    · rw [if_pos hk] at h
      simp only [Option.some.injEq] at h
      have he : (k, q) = kv := by rw [← hk, ← h]
      exact List.mem_cons.mpr (Or.inl he)
    · rw [if_neg hk] at h
      exact List.mem_cons_of_mem kv (ih h)

theorem lookupR_of_mem : ∀ {l : SKey} {k : String} {q : ℚ},
    NodupKeys l → (k, q) ∈ l → lookupR l k = some q := by
  intro l
  induction l with
  | nil => intro k q _ h; simp at h
  | cons kv rest ih =>
    intro k q hnd hm
    unfold NodupKeys at hnd
    simp only [List.map_cons, List.nodup_cons] at hnd
    rcases List.mem_cons.mp hm with rfl | hm'
    · simp [lookupR]
    · have hk : ¬ kv.1 = k := by
        intro he
        exact hnd.1 (he ▸ List.mem_map.mpr ⟨(k, q), hm', rfl⟩)
      unfold lookupR
      rw [if_neg hk]
      exact ih hnd.2 hm'

theorem lookupR_eq_none_iff : ∀ {l : SKey} {k : String},
    lookupR l k = none ↔ k ∉ l.map Prod.fst := by
  intro l
  induction l with
  | nil => intro k; simp [lookupR]
  | cons kv rest ih =>
    intro k
    unfold lookupR
    by_cases hk : kv.1 = k
    · simp [hk]
    · rw [if_neg hk]
      simp only [List.map_cons, List.mem_cons]
      rw [ih]
      constructor
      · intro hnot hor
        rcases hor with h1 | h2
        · exact hk h1.symm
        · exact hnot h2
      · intro h
        exact fun hm => h (Or.inr hm)

theorem lookupR_perm {l l' : SKey} (hp : l.Perm l') (hn : NodupKeys l)
    (k : String) : lookupR l k = lookupR l' k := by
  have hn' : NodupKeys l' := (hp.map Prod.fst).nodup hn
  cases h : lookupR l k with
  | some q => exact (lookupR_of_mem hn' (hp.mem_iff.mp (lookupR_mem h))).symm
  | none =>
    have := lookupR_eq_none_iff.mp h
    exact (lookupR_eq_none_iff.mpr
      (fun hm => this ((hp.map Prod.fst).mem_iff.mpr hm))).symm

theorem stateEquiv_of_stateKey_eq {s s' : State} (hs : NodupKeys s)
    (h : stateKey s = stateKey s') : StateEquiv s s' := by
  intro k
  rw [ratVal_eq_lookupR, ratVal_eq_lookupR]
  exact lookupR_perm (ratPairs_perm_of_stateKey_eq h) (nodupKeys_ratPairs hs) k

/-!
## Cache invariants and the claim theorems about `plan`
-/

theorem lookupC_insertC (c : Cache) (k : SKey × SKey) (v : List String)
    (k' : SKey × SKey) :
    lookupC (insertC c k v) k' = if k = k' then some v else lookupC c k' := by
  induction c with
  | nil => by_cases h : k = k' <;> simp [insertC, lookupC, h]
  | cons e rest ih =>
    by_cases h1 : e.1 = k
    · by_cases h2 : k = k' <;> simp [insertC, lookupC, h1, h2]
    · by_cases h2 : e.1 = k'
      · have hne : ¬ k = k' := fun he => h1 (h2.trans he.symm)
        have hne' : ¬ k' = k := fun he => hne he.symm
        simp [insertC, lookupC, h1, h2, hne, hne']
      · by_cases h3 : k = k'
        · subst h3
          simp [insertC, lookupC, h1, h2, ih]
        · simp [insertC, lookupC, h1, h2, h3, ih]

/-- Every cached plan validates against every query dict pair that maps to
its key (Python dict equality collapses `True`/`1` and ignores order). -/
def CacheOK (P : GOAPPlanner) (c : Cache) : Prop :=
  ∀ s g p, NodupKeys s → NodupKeys g →
    lookupC c (cacheKey s g) = some p → P.validate_plan p s g = true

/-- Every cached plan respects the depth bound. -/
def CacheLen (P : GOAPPlanner) (c : Cache) : Prop :=
  ∀ k p, lookupC c k = some p → p.length ≤ P.max_depth

theorem initQueue_ok (P : GOAPPlanner) (s g : State) :
    ∀ n ∈ [initNode s g], NodeOK P s n := by
  intro n hn
  rw [List.mem_singleton] at hn
  subst hn
  exact initNode_ok P s g

theorem planCore_found_spec {P : GOAPPlanner} {s g : State} {p : List String}
    (hcore : P.planCore s g = some (.found p)) :
    ∃ (st : State) (acts : List Action), (∀ a ∈ acts, a ∈ P.actions) ∧
      p = acts.map Action.name ∧ runOK s acts st ∧
      checkGoal st g = true ∧ p.length ≤ P.max_depth := by
  unfold GOAPPlanner.planCore at hcore
  exact searchLoop_found P s g _ _ _ _ p (initQueue_ok P s g) hcore

theorem plan_spec (P : GOAPPlanner) (hnd : (P.actions.map Action.name).Nodup)
    (c : Cache) (s g : State) (hs : NodupKeys s) (hg : NodupKeys g)
    (hC : CacheOK P c) :
    (P.validate_plan (P.plan c s g).1 s g = true ∨ (P.plan c s g).1 = []) ∧
    CacheOK P (P.plan c s g).2 := by
  cases hl : lookupC c (cacheKey s g) with
  | some p =>
    have hplan : P.plan c s g = (p, c) := by simp [GOAPPlanner.plan, hl]
    rw [hplan]
    exact ⟨Or.inl (hC s g p hs hg hl), hC⟩
  | none =>
    cases hcore : P.planCore s g with
    | none =>
      have hplan : P.plan c s g = ([], c) := by simp [GOAPPlanner.plan, hl, hcore]
      rw [hplan]
      exact ⟨Or.inr rfl, hC⟩
    | some outcome =>
      cases outcome with
      | exhausted =>
        have hplan : P.plan c s g = ([], c) := by simp [GOAPPlanner.plan, hl, hcore]
        rw [hplan]
        exact ⟨Or.inr rfl, hC⟩
      | found p =>
        have hplan : P.plan c s g = (p, insertC c (cacheKey s g) p) := by
          simp [GOAPPlanner.plan, hl, hcore]
        obtain ⟨st, acts, hmem, hpeq, hrun, hgoal, hlen⟩ := planCore_found_spec hcore
        have hval : P.validate_plan p s g = true := by
          unfold GOAPPlanner.validate_plan
          rw [hpeq]
          exact validate_of_runOK hnd hmem hrun hgoal
        rw [hplan]
        refine ⟨Or.inl hval, ?_⟩
        intro s' g' p' hs' hg' hl'
        rw [lookupC_insertC] at hl'
        by_cases hkey : cacheKey s g = cacheKey s' g'
        · rw [if_pos hkey] at hl'
          injection hl' with hpp
          subst hpp
          have hkey1 : stateKey s = stateKey s' := congrArg Prod.fst hkey
          have hkey2 : stateKey g = stateKey g' := congrArg Prod.snd hkey
          have hequiv : StateEquiv s' s := stateEquiv_of_stateKey_eq hs' hkey1.symm
          have hperm : (ratPairs g').Perm (ratPairs g) :=
            ratPairs_perm_of_stateKey_eq hkey2.symm
          unfold GOAPPlanner.validate_plan at hval ⊢
          rw [validateFrom_congr hperm p hequiv]
          exact hval
        · rw [if_neg hkey] at hl'
          exact hC s' g' p' hs' hg' hl'

theorem plan_len (P : GOAPPlanner) (c : Cache) (s g : State)
    (hL : CacheLen P c) :
    (P.plan c s g).1.length ≤ P.max_depth ∧ CacheLen P (P.plan c s g).2 := by
  cases hl : lookupC c (cacheKey s g) with
  | some p =>
    have hplan : P.plan c s g = (p, c) := by simp [GOAPPlanner.plan, hl]
    rw [hplan]
    exact ⟨hL _ p hl, hL⟩
  | none =>
    cases hcore : P.planCore s g with
    | none =>
      have hplan : P.plan c s g = ([], c) := by simp [GOAPPlanner.plan, hl, hcore]
      rw [hplan]
      exact ⟨by simp, hL⟩
    | some outcome =>
      cases outcome with
      | exhausted =>
        have hplan : P.plan c s g = ([], c) := by simp [GOAPPlanner.plan, hl, hcore]
        rw [hplan]
        exact ⟨by simp, hL⟩
      | found p =>
        have hplan : P.plan c s g = (p, insertC c (cacheKey s g) p) := by
          simp [GOAPPlanner.plan, hl, hcore]
        obtain ⟨st, acts, hmem, hpeq, hrun, hgoal, hlen⟩ := planCore_found_spec hcore
        rw [hplan]
        refine ⟨hlen, ?_⟩
        intro k p' hl'
        rw [lookupC_insertC] at hl'
        by_cases hkey : cacheKey s g = k
        · rw [if_pos hkey] at hl'
          injection hl' with hpp
          subst hpp
          exact hlen
        · rw [if_neg hkey] at hl'
          exact hL k p' hl'

theorem planTrace_validate (P : GOAPPlanner)
    (hnd : (P.actions.map Action.name).Nodup) :
    ∀ (calls : List (State × State)) (c : Cache), CacheOK P c →
      (∀ x ∈ calls, NodupKeys x.1 ∧ NodupKeys x.2) →
      List.Forall₂ (fun p x => P.validate_plan p x.1 x.2 = true ∨ p = [])
        (P.planTrace calls c) calls := by
  intro calls
  induction calls with
  | nil => intro c _ _; exact List.Forall₂.nil
  | cons x rest ih =>
    intro c hC hcall
    obtain ⟨s, g⟩ := x
    have hx := hcall (s, g) (List.mem_cons_self _ _)
    have hspec := plan_spec P hnd c s g hx.1 hx.2 hC
    simp only [GOAPPlanner.planTrace]
    exact List.Forall₂.cons hspec.1
      (ih _ hspec.2 fun y hy => hcall y (List.mem_cons_of_mem _ hy))

theorem planTrace_len (P : GOAPPlanner) :
    ∀ (calls : List (State × State)) (c : Cache), CacheLen P c →
      ((P.planTrace calls c).all fun p => decide (p.length ≤ P.max_depth)) = true := by
  intro calls
  induction calls with
  | nil => intro c _; rfl
  | cons x rest ih =>
    intro c hL
    obtain ⟨s, g⟩ := x
    have hlen := plan_len P c s g hL
    simp only [GOAPPlanner.planTrace, List.all_cons]
    rw [decide_eq_true hlen.1, ih _ hlen.2]
    rfl

theorem emptyCache_ok (P : GOAPPlanner) : CacheOK P [] := by
  intro s g p _ _ h
  simp [lookupC] at h

theorem emptyCache_len (P : GOAPPlanner) : CacheLen P [] := by
  intro k p h
  simp [lookupC] at h

/-- C1 (amended): over any sequence of `plan` calls on a planner with
pairwise-distinct operator names, starting from the empty cache, every
returned sequence either passes `validate_plan` for its own
`(start, goal)` pair or is the empty failure marker `[]` produced by
frontier exhaustion (which validates only when the start state already
satisfies the goal). -/
theorem plan_results_validate (P : GOAPPlanner)
    (hnd : (P.actions.map Action.name).Nodup)
    (calls : List (State × State))
    (hcall : ∀ x ∈ calls, NodupKeys x.1 ∧ NodupKeys x.2) :
    List.Forall₂ (fun p x => P.validate_plan p x.1 x.2 = true ∨ p = [])
      (P.planTrace calls []) calls :=
  planTrace_validate P hnd calls [] (emptyCache_ok P) hcall

/-- C4: every sequence a `plan` call returns — across any call sequence,
cached results included — has length at most the configured `max_depth`. -/
theorem plan_results_within_depth (P : GOAPPlanner)
    (calls : List (State × State)) :
    ((P.planTrace calls []).all fun p => decide (p.length ≤ P.max_depth)) = true :=
  planTrace_len P calls [] (emptyCache_len P)

/-- The Scenario-A operator: chop wood by a tree. -/
def chopAction : Action :=
  { name := "chop", preconditions := [("near_tree", .bool true)]
    effects := [("has_wood", .bool true)], cost := 1 }

/-- A one-operator planner with depth bound 2. -/
def chopPlanner : GOAPPlanner := { actions := [chopAction], max_depth := 2 }

/-- Witness for C1 (amended) at the Scenario-A instance. -/
theorem plan_results_validate_witness :
    List.Forall₂
      (fun p x => chopPlanner.validate_plan p x.1 x.2 = true ∨ p = [])
      (chopPlanner.planTrace
        [([("near_tree", .bool true)], [("has_wood", .bool true)])] [])
      [([("near_tree", .bool true)], [("has_wood", .bool true)])] :=
  plan_results_validate chopPlanner (by decide)
    [([("near_tree", .bool true)], [("has_wood", .bool true)])] (by decide)

/-- A planner with no operators and depth bound 1. -/
def emptyPlanner : GOAPPlanner := { actions := [], max_depth := 1 }

/-- An unsatisfied goal for the empty start state. -/
def goalOne : State := [("g", .num 1)]

/-- Counterexample to C1 as stated: with no operators, `plan` returns the
empty sequence for an unreachable goal, and `validate_plan` rejects that
empty sequence (the goal is unmet after zero steps), so not every returned
sequence validates. -/
theorem plan_empty_result_invalid :
    (emptyPlanner.plan [] [] goalOne).1 = [] ∧
    emptyPlanner.validate_plan (emptyPlanner.plan [] [] goalOne).1 [] goalOne
      = false := by
  constructor <;> rfl

/-- C6 (amended): two successive `plan` calls with identical start and
goal return identical sequences; the second call is served from the cache
whenever the first call's search found a plan (or the pair was already
cached), while after a failed search nothing is cached, the cache is
unchanged, and the repeat call deterministically re-searches and returns
`[]` again. -/
theorem plan_cache_determinism (P : GOAPPlanner) (c : Cache) (s g : State) :
    (P.plan (P.plan c s g).2 s g).1 = (P.plan c s g).1 ∧
    (lookupC (P.plan c s g).2 (cacheKey s g) = some (P.plan c s g).1 ∨
      (lookupC c (cacheKey s g) = none ∧ (P.plan c s g).2 = c ∧
        (P.plan c s g).1 = [] ∧
        ∀ p, P.planCore s g ≠ some (.found p))) := by
  cases hl : lookupC c (cacheKey s g) with
  | some p =>
    have hplan : P.plan c s g = (p, c) := by simp [GOAPPlanner.plan, hl]
    refine ⟨?_, Or.inl ?_⟩
    · simp [hplan]
    · simp [hplan, hl]
  | none =>
    cases hcore : P.planCore s g with
    | none =>
      have hplan : P.plan c s g = ([], c) := by simp [GOAPPlanner.plan, hl, hcore]
      refine ⟨?_, Or.inr ⟨rfl, ?_, ?_, ?_⟩⟩
      · simp [hplan]
      · simp [hplan]
      · simp [hplan]
      · intro p hp
        simp at hp
    | some outcome =>
      cases outcome with
      | exhausted =>
        have hplan : P.plan c s g = ([], c) := by simp [GOAPPlanner.plan, hl, hcore]
        refine ⟨?_, Or.inr ⟨rfl, ?_, ?_, ?_⟩⟩
        · simp [hplan]
        · simp [hplan]
        · simp [hplan]
        · intro p hp
          simp at hp
      | found p =>
        have hplan : P.plan c s g = (p, insertC c (cacheKey s g) p) := by
          simp [GOAPPlanner.plan, hl, hcore]
        have hlook : lookupC (insertC c (cacheKey s g) p) (cacheKey s g) = some p := by
          rw [lookupC_insertC, if_pos rfl]
        have hplan2 : P.plan (insertC c (cacheKey s g) p) s g =
            (p, insertC c (cacheKey s g) p) := by
          simp [GOAPPlanner.plan, hlook]
        refine ⟨?_, Or.inl ?_⟩
        · simp [hplan, hplan2]
        · simp [hplan, hlook]

/-- Counterexample to C6 as stated: after a failed search nothing is
cached — the cache has no entry for the pair, so the second identical
call does not return a cached result (it re-searches). -/
theorem plan_no_cache_after_failure :
    lookupC (emptyPlanner.plan [] [] goalOne).2 (cacheKey [] goalOne) = none := by
  rfl

/-!
## Effect application, plan costing, boolean preconditions
-/

theorem getVal_eq_none_iff : ∀ {l : State} {k : String},
    getVal l k = none ↔ k ∉ l.map Prod.fst := by
  intro l
  induction l with
  | nil => intro k; simp [getVal]
  | cons kv rest ih =>
    intro k
    unfold getVal
    by_cases hk : kv.1 = k
    · simp [hk]
    · rw [if_neg hk]
      simp only [List.map_cons, List.mem_cons]
      rw [ih]
      constructor
      · intro hnot hor
        rcases hor with h1 | h2
        · exact hk h1.symm
        · exact hnot h2
      · intro h
        exact fun hm => h (Or.inr hm)

theorem foldl_applyEffect_spec :
    ∀ (es : List (String × Value)), NodupKeys es → ∀ (s : State) (k : String),
      getVal (es.foldl applyEffect s) k =
        match getVal es k with
        | none => getVal s k
        | some v =>
          if v.isNumeric && (getVal s k).isSome then
            some (.num (((getVal s k).getD (.num 0)).toRat + v.toRat))
          else some v := by
  intro es
  induction es with
  | nil => intro _ s k; rfl
  | cons e rest ih =>
    intro hnd s k
    unfold NodupKeys at hnd
    simp only [List.map_cons, List.nodup_cons] at hnd
    rw [List.foldl_cons, ih hnd.2 (applyEffect s e) k]
    by_cases hk : e.1 = k
    · subst hk
      have hnone : getVal rest e.1 = none := getVal_eq_none_iff.mpr hnd.1
      have hhead : getVal (e :: rest) e.1 = some e.2 := by
        simp [getVal]
      rw [hnone, hhead]
      by_cases hc : (e.2.isNumeric && (getVal s e.1).isSome) = true
      · simp [applyEffect, getVal_setVal, hc]
      · simp [applyEffect, getVal_setVal, hc]
    · have hae : getVal (applyEffect s e) k = getVal s k := by
        unfold applyEffect
        split <;> rw [getVal_setVal, if_neg hk]
      have hhead : getVal (e :: rest) k = getVal rest k := by
        simp only [getVal]
        rw [if_neg hk]
      rw [hhead, hae]

/-- C7: effect application — a numeric effect value on a key already in
the state is an additive delta (`state[k] + v`, with Python's numeric view
of booleans), any other effect key is assigned its effect value directly,
and keys outside the effects keep their values.  The embedding is a pure
function, so the input state is unchanged by construction. -/
theorem apply_effects_spec (a : Action) (s : State)
    (heff : NodupKeys a.effects) (k : String) :
    getVal (a.apply s) k =
      match getVal a.effects k with
      | none => getVal s k
      | some v =>
        if v.isNumeric && (getVal s k).isSome then
          some (.num (((getVal s k).getD (.num 0)).toRat + v.toRat))
        else some v := by
  unfold Action.apply
  exact foldl_applyEffect_spec a.effects heff s k

/-- A two-effect action: +5 gold and a fresh flag. -/
def giftAction : Action :=
  { name := "gift", preconditions := []
    effects := [("gold", .num 5), ("blessed", .bool true)], cost := 1 }

/-- The state holding 2 gold. -/
def richState : State := [("gold", .num 2)]

/-- Witness for C7: the gold effect adds (2 + 5 = 7), the flag effect is
assigned directly. -/
theorem apply_effects_spec_witness :
    NodupKeys giftAction.effects ∧
    getVal (giftAction.apply richState) "gold" = some (.num 7) ∧
    getVal (giftAction.apply richState) "blessed" = some (.bool true) := by
  refine ⟨by decide, ?_, ?_⟩
  · rw [apply_effects_spec giftAction richState (by decide) "gold"]
    simp [giftAction, richState, getVal, Value.toRat, Value.isNumeric]
    norm_num
  · rw [apply_effects_spec giftAction richState (by decide) "blessed"]
    simp [giftAction, richState, getVal, Value.toRat, Value.isNumeric]

theorem foldl_cost (P : GOAPPlanner) :
    ∀ (pl : List String) (acc : ℚ),
      pl.foldl (fun tc nm =>
        match findAction P.actions nm with
        | some a => tc + a.cost
        | none => tc) acc =
      acc + (pl.map fun nm => match findAction P.actions nm with
        | some a => a.cost
        | none => 0).sum := by
  intro pl
  induction pl with
  | nil => intro acc; simp
  | cons nm rest ih =>
    intro acc
    rw [List.foldl_cons, List.map_cons, List.sum_cons, ih]
    cases hf : findAction P.actions nm <;> ring

/-- C8: `get_plan_cost` is the sum of the declared costs of the names
that match a registered operator; every unknown name contributes exactly
zero (the lookup is total — nothing is raised), so a plan of unknown
names costs 0. -/
theorem get_plan_cost_spec (P : GOAPPlanner) (pl : List String) :
    P.get_plan_cost pl =
      (pl.map fun nm => match findAction P.actions nm with
        | some a => a.cost
        | none => 0).sum ∧
    ((∀ nm ∈ pl, findAction P.actions nm = none) → P.get_plan_cost pl = 0) := by
  have h1 : P.get_plan_cost pl =
      (pl.map fun nm => match findAction P.actions nm with
        | some a => a.cost
        | none => 0).sum := by
    unfold GOAPPlanner.get_plan_cost
    rw [foldl_cost P pl 0, zero_add]
  refine ⟨h1, fun hall => ?_⟩
  rw [h1]
  apply List.sum_eq_zero
  intro x hx
  obtain ⟨nm, hnm, hfx⟩ := List.mem_map.mp hx
  rw [hall nm hnm] at hfx
  exact hfx.symm

/-- Witness for C8: a plan of only unknown names costs 0 on the
one-operator planner. -/
theorem get_plan_cost_spec_witness :
    chopPlanner.get_plan_cost ["ghost", "phantom"] = 0 :=
  (get_plan_cost_spec chopPlanner ["ghost", "phantom"]).2 (by decide)

/-- C10: boolean precondition values are compared numerically — Python's
`bool` is a subclass of `int`, so `isinstance(v, (int, float))` holds for
`True` and the threshold branch runs: a precondition of `True` on a
numeric state value `n` is satisfied exactly when `n ≥ 1`, and a numeric
precondition `1` is satisfied by a state value of `True`. -/
theorem bool_precond_as_numeric (nm : String) (eff : State) (cost : ℚ)
    (k : String) (s : State) (n : ℚ) :
    (getVal s k = some (.num n) →
      ((Action.mk nm [(k, .bool true)] eff cost).is_valid s = true ↔ 1 ≤ n)) ∧
    (getVal s k = some (.bool true) →
      (Action.mk nm [(k, .num 1)] eff cost).is_valid s = true) := by
  constructor
  · intro h
    simp [Action.is_valid, precondHolds, h, Value.isNumeric, Value.toRat]
  · intro h
    simp [Action.is_valid, precondHolds, h, Value.isNumeric, Value.toRat]

/-- Witness for C10: value 2 satisfies a `True` precondition, and `True`
satisfies a numeric precondition of 1. -/
theorem bool_precond_as_numeric_witness :
    (Action.mk "a" [("g", .bool true)] [] 1).is_valid [("g", .num 2)] = true ∧
    (Action.mk "a" [("g", .num 1)] [] 1).is_valid [("g", .bool true)] = true :=
  ⟨((bool_precond_as_numeric "a" [] 1 "g" [("g", .num 2)] 2).1 rfl).mpr
      (by norm_num),
    (bool_precond_as_numeric "a" [] 1 "g" [("g", .bool true)] 0).2 rfl⟩

end Spec2Proof
